import Mathlib

/-!
Shallow embedding of the prefix-sum repository (src/my-count.cpp and
src/prefixSum.cpp) and proofs about it.

Modelling conventions:
* A C `int*` buffer is modelled as a total function `Nat → Int`; all index
  arithmetic in the program stays non-negative (process ordinals, block
  bounds and loop counters are non-negative on every execution path), so
  indices are `Nat`.
* `pow(2, i)` on small non-negative ints is the exact `2 ^ i`.
* `floor(log2f(n))` for `n ≥ 1` is modelled as the exact `Nat.log2 n`
  (single-precision `log2f` agrees with the exact base-2 logarithm on the
  argument ranges exercised here).
* `round((float)N/(float)M)` is modelled as exact round-half-away-from-zero
  of the rational N/M, which for naturals is `(2*N + M) / (2*M)`.
* Statements about the concurrent execution use the fact, proved below as
  block disjointness, that distinct workers write disjoint index sets.
-/

/-- Functional update of a buffer: the effect of the C store `a[k] = v`. -/
def updArr (a : Nat → Int) (k : Nat) (v : Int) : Nat → Int :=
  fun i => if i = k then v else a i

/-- Body of the `for(k = blockStart; k < blockEnd; k++)` loop of
`parallelScan` in src/my-count.cpp (lines 152-160), with `fuel`
standing for the remaining trip count `blockEnd - k`.  The
`if(k >= arraySize) break;` guard is the first test of each iteration. -/
def scanLoop (thisArray nextArray : Nat → Int) (k fuel temp arraySize : Nat) :
    Nat → Int :=
  match fuel with
  | 0 => nextArray
  | fuel' + 1 =>
    if arraySize ≤ k then nextArray
    else
      scanLoop thisArray
        (updArr nextArray k
          (if k < temp then thisArray k else thisArray k + thisArray (k - temp)))
        (k + 1) fuel' temp arraySize

/-- Block start as computed in `parallelScan` (src/my-count.cpp line 143):
`blockStart = thisProcess * blockSize`. -/
def blockStartOf (thisProcess blockSize : Nat) : Nat :=
  thisProcess * blockSize

/-- Block end as computed in `parallelScan` (src/my-count.cpp lines 144-147):
`blockEnd = blockStart + blockSize`, overridden to `arraySize` for the last
process (`thisProcess == processes - 1`). -/
def blockEndOf (thisProcess processes blockSize arraySize : Nat) : Nat :=
  if thisProcess = processes - 1 then arraySize
  else blockStartOf thisProcess blockSize + blockSize

/-- The function `parallelScan` of src/my-count.cpp (lines 141-161): one
worker's Hillis-Steele combine step for one round, reading `thisArray` and
writing its block of `nextArray`.  Returns the buffer `nextArray` as it is
after the call. -/
def parallelScan (thisArray nextArray : Nat → Int)
    (thisProcess processes iter blockSize arraySize : Nat) : Nat → Int :=
  let blockStart := blockStartOf thisProcess blockSize
  let blockEnd := blockEndOf thisProcess processes blockSize arraySize
  let temp := 2 ^ iter
  scanLoop thisArray nextArray blockStart (blockEnd - blockStart) temp arraySize

/-- The block size computed in main (src/my-count.cpp line 255):
`blockSize = round((float)arrSize/(float)numProcesses)`, modelled as exact
round-half-away-from-zero of the rational arrSize/numProcesses. -/
def blockSizeOf (arrSize numProcesses : Nat) : Nat :=
  (2 * arrSize + numProcesses) / (2 * numProcesses)

/-- Structural version of the base-2 integer logarithm: `fuel` bounds the
recursion depth (any `fuel ≥ n` computes `Nat.log2 n`, see
`log2Fuel_eq_log2`), so the definition reduces inside the kernel. -/
def log2Fuel : Nat → Nat → Nat
  | 0, _ => 0
  | fuel + 1, n => if 2 ≤ n then log2Fuel fuel (n / 2) + 1 else 0

/-- Iteration bound computed in main (src/my-count.cpp line 252):
`iterations = floor(log2f(arrSize))`, modelled as the exact base-2
integer logarithm. -/
def iterationsOf (arrSize : Nat) : Nat :=
  log2Fuel arrSize arrSize

/-- Helper lemma: the fuel-based logarithm computes `Nat.log2` whenever the
fuel dominates the argument. -/
theorem log2Fuel_eq_log2 : ∀ fuel n, n ≤ fuel → log2Fuel fuel n = Nat.log2 n := by
  intro fuel
  induction fuel with
  | zero =>
    intro n hn
    have h0 : n = 0 := by omega
    subst h0
    rw [Nat.log2]
    rfl
  | succ fuel ih =>
    intro n hn
    unfold log2Fuel
    by_cases h : 2 ≤ n
    · rw [if_pos h, ih (n / 2) (by omega)]
      conv_rhs => rw [Nat.log2]
      rw [if_pos h]
    · rw [if_neg h]
      conv_rhs => rw [Nat.log2]
      rw [if_neg h]

/-- Helper lemma: `iterations` equals the exact floor base-2 logarithm of
the array size. -/
theorem iterationsOf_eq_log2 (arrSize : Nat) :
    iterationsOf arrSize = Nat.log2 arrSize :=
  log2Fuel_eq_log2 arrSize arrSize (Nat.le_refl arrSize)

/-- Characterisation of the scan loop: index `x` of the result holds the
combine value exactly when the loop reached and wrote it, i.e. when
`k ≤ x < k + fuel` and `x < arraySize`; every other index keeps its
`nextArray` value. -/
theorem scanLoop_apply (thisArray : Nat → Int) (temp arraySize : Nat) :
    ∀ fuel k nextArray x,
      scanLoop thisArray nextArray k fuel temp arraySize x =
        if k ≤ x ∧ x < k + fuel ∧ x < arraySize then
          (if x < temp then thisArray x else thisArray x + thisArray (x - temp))
        else nextArray x := by
  intro fuel
  induction fuel with
  | zero =>
    intro k nextArray x
    simp only [scanLoop]
    have hx : ¬(k ≤ x ∧ x < k + 0 ∧ x < arraySize) := by omega
    rw [if_neg hx]
  | succ fuel ih =>
    intro k nextArray x
    simp only [scanLoop]
    by_cases hbreak : arraySize ≤ k
    · rw [if_pos hbreak]
      have hx : ¬(k ≤ x ∧ x < k + (fuel + 1) ∧ x < arraySize) := by omega
      rw [if_neg hx]
    · rw [if_neg hbreak, ih]
      by_cases hxk : x = k
      · subst hxk
        have h1 : ¬(x + 1 ≤ x ∧ x < x + 1 + fuel ∧ x < arraySize) := by omega
        have h2 : x ≤ x ∧ x < x + (fuel + 1) ∧ x < arraySize := by omega
        rw [if_neg h1, if_pos h2]
        simp [updArr]
      · by_cases h1 : k + 1 ≤ x ∧ x < k + 1 + fuel ∧ x < arraySize
        · have h2 : k ≤ x ∧ x < k + (fuel + 1) ∧ x < arraySize := by omega
          rw [if_pos h1, if_pos h2]
        · have h2 : ¬(k ≤ x ∧ x < k + (fuel + 1) ∧ x < arraySize) := by omega
          rw [if_neg h1, if_neg h2]
          simp [updArr, hxk]

/-- The membership predicate of a worker's effective block for a round:
the code-computed range `[blockStart, blockEnd)` intersected with `[0, N)`
(the per-index `if(k >= arraySize) break;` clamp). -/
def inEffBlock (j processes blockSize arraySize k : Nat) : Prop :=
  blockStartOf j blockSize ≤ k ∧
    k < min (blockEndOf j processes blockSize arraySize) arraySize

instance (j processes blockSize arraySize k : Nat) :
    Decidable (inEffBlock j processes blockSize arraySize k) := by
  unfold inEffBlock; infer_instance

/-- C5: for every round `i` with distance `2^i`, a worker's scan step writes
`next[k] = current[k]` for `k < 2^i` and
`next[k] = current[k] + current[k - 2^i]` otherwise, exactly at the indices
`k` in `[blockStart, min(blockEnd, N))`; every index outside that range keeps
its previous `next` value, and the written values depend only on the
`current` buffer. -/
theorem parallelScan_step_characterisation
    (thisArray nextArray : Nat → Int)
    (thisProcess processes iter blockSize arraySize k : Nat) :
    parallelScan thisArray nextArray thisProcess processes iter blockSize
        arraySize k =
      if blockStartOf thisProcess blockSize ≤ k ∧
          k < min (blockEndOf thisProcess processes blockSize arraySize)
            arraySize then
        (if k < 2 ^ iter then thisArray k
         else thisArray k + thisArray (k - 2 ^ iter))
      else nextArray k := by
  unfold parallelScan
  rw [scanLoop_apply]
  have hiff :
      (blockStartOf thisProcess blockSize ≤ k ∧
          k < blockStartOf thisProcess blockSize +
            (blockEndOf thisProcess processes blockSize arraySize -
              blockStartOf thisProcess blockSize) ∧ k < arraySize) ↔
      (blockStartOf thisProcess blockSize ≤ k ∧
          k < min (blockEndOf thisProcess processes blockSize arraySize)
            arraySize) := by
    omega
  by_cases h : blockStartOf thisProcess blockSize ≤ k ∧
      k < min (blockEndOf thisProcess processes blockSize arraySize) arraySize
  · rw [if_pos (hiff.mpr h), if_pos h]
  · rw [if_neg (fun hc => h (hiff.mp hc)), if_neg h]

/-- Helper lemma: the override on line 147 of src/my-count.cpp makes the
last worker's block end equal to the array size. -/
theorem blockEndOf_last (processes blockSize arraySize : Nat) :
    blockEndOf (processes - 1) processes blockSize arraySize = arraySize := by
  unfold blockEndOf
  rw [if_pos rfl]

/-- C7: the last worker's block end is forced to `N` by the override on
line 147 of src/my-count.cpp, whatever value the rounded block-size formula
produced. -/
theorem lastWorker_blockEnd_eq
    (arrSize numProcesses blockSize : Nat)
    (hN : 1 ≤ arrSize) (hM1 : 1 ≤ numProcesses) (hMN : numProcesses ≤ arrSize) :
    blockEndOf (numProcesses - 1) numProcesses blockSize arrSize = arrSize :=
  blockEndOf_last numProcesses blockSize arrSize

/-- Witness for `lastWorker_blockEnd_eq` at N = 7, M = 3 with the actual
rounded block size. -/
theorem lastWorker_blockEnd_eq_witness :
    blockEndOf (3 - 1) 3 (blockSizeOf 7 3) 7 = 7 :=
  lastWorker_blockEnd_eq 7 3 (blockSizeOf 7 3) (by decide) (by decide)
    (by decide)

/-- Coverage part of C6, proved for an arbitrary block size: every array
index lies in some worker's effective block. -/
theorem effBlock_cover (processes blockSize arraySize : Nat)
    (hM : 1 ≤ processes) :
    ∀ k, k < arraySize →
      ∃ j, j < processes ∧ inEffBlock j processes blockSize arraySize k := by
  intro k hk
  by_cases hlast : processes - 1 ≤ k / blockSize ∨ blockSize = 0
  · refine ⟨processes - 1, by omega, ?_⟩
    unfold inEffBlock
    rw [blockEndOf_last]
    refine ⟨?_, by omega⟩
    unfold blockStartOf
    rcases hlast with h | h
    · have h1 : (processes - 1) * blockSize ≤ k / blockSize * blockSize :=
        Nat.mul_le_mul_right blockSize h
      have h2 : k / blockSize * blockSize ≤ k := Nat.div_mul_le_self k blockSize
      omega
    · subst h
      simp
  · push_neg at hlast
    obtain ⟨hjlt, hbs⟩ := hlast
    refine ⟨k / blockSize, by omega, ?_⟩
    unfold inEffBlock
    have hne : ¬ (k / blockSize = processes - 1) := by omega
    unfold blockEndOf
    rw [if_neg hne]
    unfold blockStartOf
    have h2 : k / blockSize * blockSize ≤ k := Nat.div_mul_le_self k blockSize
    have hdm := Nat.div_add_mod k blockSize
    have hmlt : k % blockSize < blockSize := Nat.mod_lt k (by omega)
    have hcomm : blockSize * (k / blockSize) = k / blockSize * blockSize :=
      Nat.mul_comm blockSize (k / blockSize)
    have h3 : k < k / blockSize * blockSize + blockSize := by omega
    omega

/-- Disjointness part of C6, proved for an arbitrary block size: effective
blocks of distinct workers never share an index. -/
theorem effBlock_disjoint (processes blockSize arraySize : Nat)
    (hM : 1 ≤ processes) :
    ∀ j1 j2, j1 < processes → j2 < processes → j1 ≠ j2 →
      ∀ k, inEffBlock j1 processes blockSize arraySize k →
        ¬ inEffBlock j2 processes blockSize arraySize k := by
  have key : ∀ j1 j2, j1 < processes → j2 < processes → j1 < j2 →
      ∀ k, inEffBlock j1 processes blockSize arraySize k →
        ¬ inEffBlock j2 processes blockSize arraySize k := by
    intro j1 j2 h1 h2 hlt k hk1 hk2
    have hj1 : ¬ (j1 = processes - 1) := by omega
    obtain ⟨hs1, he1⟩ := hk1
    obtain ⟨hs2, he2⟩ := hk2
    unfold blockEndOf at he1
    rw [if_neg hj1] at he1
    unfold blockStartOf at hs1 hs2 he1
    have hup : k < j1 * blockSize + blockSize := by omega
    have hstep : j1 * blockSize + blockSize ≤ j2 * blockSize := by
      have hmul : (j1 + 1) * blockSize ≤ j2 * blockSize :=
        Nat.mul_le_mul_right blockSize (by omega)
      have hone : (j1 + 1) * blockSize = j1 * blockSize + blockSize :=
        Nat.succ_mul j1 blockSize
      omega
    omega
  intro j1 j2 h1 h2 hne k hk1 hk2
  rcases Nat.lt_or_ge j1 j2 with hlt | hge
  · exact key j1 j2 h1 h2 hlt k hk1 hk2
  · have hlt2 : j2 < j1 := by omega
    exact key j2 j1 h2 h1 hlt2 k hk2 hk1

/-- C6: with the block size actually computed by main
(`blockSize = round(N/M)`), the effective blocks of the M workers are
pairwise disjoint and their union is exactly `[0, N)`.  The block bounds do
not depend on the round number, so this holds in every round. -/
theorem effBlocks_partition (arrSize numProcesses : Nat)
    (hN : 1 ≤ arrSize) (hM1 : 1 ≤ numProcesses) (hMN : numProcesses ≤ arrSize) :
    (∀ j1 j2, j1 < numProcesses → j2 < numProcesses → j1 ≠ j2 →
        ∀ k, inEffBlock j1 numProcesses (blockSizeOf arrSize numProcesses)
            arrSize k →
          ¬ inEffBlock j2 numProcesses (blockSizeOf arrSize numProcesses)
            arrSize k) ∧
    (∀ k, k < arrSize ↔
        ∃ j, j < numProcesses ∧
          inEffBlock j numProcesses (blockSizeOf arrSize numProcesses)
            arrSize k) := by
  constructor
  · exact effBlock_disjoint numProcesses (blockSizeOf arrSize numProcesses)
      arrSize hM1
  · intro k
    constructor
    · exact effBlock_cover numProcesses (blockSizeOf arrSize numProcesses)
        arrSize hM1 k
    · rintro ⟨j, hj, hmem⟩
      have := hmem.2
      omega

/-- Witness for `effBlocks_partition` at N = 5, M = 3 (block size
round(5/3) = 2). -/
theorem effBlocks_partition_witness :
    (∀ j1 j2, j1 < 3 → j2 < 3 → j1 ≠ j2 →
        ∀ k, inEffBlock j1 3 (blockSizeOf 5 3) 5 k →
          ¬ inEffBlock j2 3 (blockSizeOf 5 3) 5 k) ∧
    (∀ k, k < 5 ↔
        ∃ j, j < 3 ∧ inEffBlock j 3 (blockSizeOf 5 3) 5 k) :=
  effBlocks_partition 5 3 (by decide) (by decide) (by decide)

/-- The function `swapArrays` of src/my-count.cpp (lines 181-185), modelled
at the level of its local variables.  The parameters arrive by value; the
body runs `temp = arrayOne;`, then the expression statement
`arrayOne - arrayTwo;` — a pointer subtraction whose value is discarded, so
it assigns nothing — then `arrayTwo = temp;`.  The result is the final value
of the locals `(arrayOne, arrayTwo)`. -/
def swapArraysLocals {α : Type} (arrayOne arrayTwo : α) : α × α :=
  let temp := arrayOne
  (arrayOne, temp)

/-- Caller-observable effect of a call `swapArrays(p, q)` in
src/my-count.cpp: the two pointers are passed by value, the function returns
`void` and stores through neither pointer, so the caller's variables
`(p, q)` are unchanged by the call. -/
def swapArraysCall {α : Type} (p q : α) : α × α :=
  (p, q)

/-- Handles to the two shared buffers allocated in main: `inArray`
(segment 1) and `outArray` (segment 2). -/
inductive BufPtr : Type
  | inBuf : BufPtr
  | outBuf : BufPtr
deriving DecidableEq

/-- Each child's local buffer pointers across its rounds
(src/my-count.cpp lines 263-267): the pair starts as
`(inArray, outArray)` and each round ends with the call
`swapArrays(inArray, outArray)`. -/
def childHandles (rounds : Nat) : BufPtr × BufPtr :=
  (List.range rounds).foldl (fun h _ => swapArraysCall h.1 h.2)
    (BufPtr.inBuf, BufPtr.outBuf)

/-- Helper lemma: the children's `swapArrays` calls never change their local
pointers, so in every round each child reads `inArray` and writes
`outArray`. -/
theorem childHandles_eq (rounds : Nat) :
    childHandles rounds = (BufPtr.inBuf, BufPtr.outBuf) := by
  induction rounds with
  | zero => rfl
  | succ r ih =>
    unfold childHandles at ih ⊢
    rw [List.range_succ, List.foldl_append, ih]
    rfl

/-- Condition of the parent's final conditional swap
(src/my-count.cpp line 276): `if((iterations % 2) != 0)
swapArrays(inArray, outArray);`. -/
def parentSwapCond (arrSize : Nat) : Bool :=
  iterationsOf arrSize % 2 != 0

/-- The parent's buffer pointers when it reaches the output-writing call
(src/my-count.cpp lines 276-280): the conditional `swapArrays` call applied
to `(inArray, outArray)`. -/
def parentHandles (arrSize : Nat) : BufPtr × BufPtr :=
  if parentSwapCond arrSize then swapArraysCall BufPtr.inBuf BufPtr.outBuf
  else (BufPtr.inBuf, BufPtr.outBuf)

/-- Number of iterations of the child round loop in src/my-count.cpp
(lines 263-267): `for(int i = 0 ; i <= iterations ; i++)` runs rounds
`0 .. iterations` inclusive. -/
def childRoundList (arrSize : Nat) : List Nat :=
  List.range (iterationsOf arrSize + 1)

/-- Iteration bound computed in src/prefixSum.cpp line 58:
`iterations = floor(log2f(numProcesses))` — the draft takes the logarithm
of the process count, not of the array size. -/
def iterationsPS (numProcesses : Nat) : Nat :=
  log2Fuel numProcesses numProcesses

/-- The round loop of src/prefixSum.cpp (lines 62-90):
`for(int i = 0 ; i <= iterations; i++)` with `iterations` computed from
`numProcesses`. -/
def psRoundList (numProcesses : Nat) : List Nat :=
  List.range (iterationsPS numProcesses + 1)

/-- The shared memory of src/my-count.cpp relevant to the scan: the two
integer buffers (segments `memID1` and `memID2`). -/
structure Shm : Type where
  inBuf : Nat → Int
  outBuf : Nat → Int

/-- Dereference a buffer pointer in a shared-memory state. -/
def readPtr (s : Shm) : BufPtr → (Nat → Int)
  | BufPtr.inBuf => s.inBuf
  | BufPtr.outBuf => s.outBuf

/-- One full round of the engine: every worker's `parallelScan` call for
round `iter`.  The workers run concurrently, but each reads only the
`inArray` buffer — which no worker ever writes, because the children's
`swapArrays` calls are no-ops on their locals (`childHandles_eq`) — and
writes a block of `outArray` disjoint from every other worker's block
(`effBlock_disjoint`), so the concurrent round equals this worker-by-worker
sequential composition. -/
def engineRound (thisArray nextArray : Nat → Int)
    (numProcesses iter blockSize arrSize : Nat) : Nat → Int :=
  (List.range numProcesses).foldl
    (fun acc j =>
      parallelScan thisArray acc j numProcesses iter blockSize arrSize)
    nextArray

/-- All rounds of the child loop (src/my-count.cpp lines 263-267).  The
barrier (`synchronize`) orders the rounds: round `i+1` starts only after
every worker finished round `i`, so the shared `outArray` evolves round by
round; `inArray` is never written after its initial fill. -/
def engineAllRounds (inArray outArray : Nat → Int)
    (numProcesses blockSize arrSize : Nat) : Nat → Int :=
  (childRoundList arrSize).foldl
    (fun acc i => engineRound inArray acc numProcesses i blockSize arrSize)
    outArray

/-- The scan engine of src/my-count.cpp from validated input to the output
sink: clamp `M` to `N` (line 218), compute `iterations` (line 252) and
`blockSize` (line 255), run the children over all rounds (lines 259-273),
apply the parent's parity-conditional `swapArrays` call (line 276), and
collect the `arrSize` entries of the buffer the parent's `outArray` local
then denotes, which `writeOutputArray` writes to the output file
(line 280).  The fresh shared segments start zero-filled. -/
def engineOutput (input : Nat → Int) (arrSize numProcessesArg : Nat) :
    List Int :=
  let numProcesses :=
    if arrSize < numProcessesArg then arrSize else numProcessesArg
  let blockSize := blockSizeOf arrSize numProcesses
  let shm : Shm := { inBuf := input, outBuf := fun _ => 0 }
  let finalShm : Shm :=
    { shm with
        outBuf :=
          engineAllRounds shm.inBuf shm.outBuf numProcesses blockSize
            arrSize }
  (List.range arrSize).map (readPtr finalShm (parentHandles arrSize).2)

/-- Sequential inclusive prefix sums, written from the spec's defining
equation `result[k] = sum(input[0..=k])`: the comparison point for the
engine's output. -/
def prefixSumsFrom (acc : Int) : List Int → List Int
  | [] => []
  | x :: xs => (acc + x) :: prefixSumsFrom (acc + x) xs

/-- Sequential inclusive prefix sums of a list. -/
def prefixSumsOf (l : List Int) : List Int :=
  prefixSumsFrom 0 l

/-- C1 (evaluation at a failing input): for N = 2, M = 1 and input
`[1, 1]`, the engine writes `[1, 1]` to its output sink — because the
`swapArrays` calls are no-ops, every round rereads the untouched input
buffer, and the final round (distance 2) copies both elements unchanged —
while the sequential inclusive prefix sum of the input is `[1, 2]`. -/
theorem engine_output_not_prefix_sums :
    engineOutput (fun _ => 1) 2 1 = [1, 1] ∧
      prefixSumsOf [1, 1] = [1, 2] ∧
      engineOutput (fun _ => 1) 2 1 ≠ prefixSumsOf [1, 1] := by
  refine ⟨by decide, by decide, by decide⟩

/-- C2 (evaluation showing the defect): a call `swapArrays(p, q)` leaves the
caller's handles `(p, q)` unchanged rather than exchanged — here at the
concrete distinct handles `inBuf`, `outBuf` — and even the callee's locals
end up `(arrayOne, arrayOne)`, not exchanged, because the statement
`arrayOne - arrayTwo;` subtracts instead of assigning. -/
theorem swapArrays_is_noop :
    swapArraysCall BufPtr.inBuf BufPtr.outBuf =
        (BufPtr.inBuf, BufPtr.outBuf) ∧
      swapArraysCall BufPtr.inBuf BufPtr.outBuf ≠
        (BufPtr.outBuf, BufPtr.inBuf) ∧
      swapArraysLocals BufPtr.inBuf BufPtr.outBuf =
        (BufPtr.inBuf, BufPtr.inBuf) := by
  refine ⟨rfl, by decide, rfl⟩

/-- C3 (counterexample): the parity of the parent's conditional final swap
is the opposite of the claimed one.  At N = 1 the round count
R = ⌈log2 1⌉ + 1 = 1 is odd yet the parent does not call `swapArrays`
(iterations = 0 is even); at N = 2 the round count R = 2 is even yet the
parent does call it (iterations = 1 is odd). -/
theorem parentSwap_parity_counterexample :
    ((childRoundList 1).length % 2 = 1 ∧ parentSwapCond 1 = false) ∧
      ((childRoundList 2).length % 2 = 0 ∧ parentSwapCond 2 = true) := by
  decide

/-- C3 (amended): after all R = ⌈log2 N⌉ + 1 rounds the parent calls
`swapArrays` exactly when `iterations = R - 1` is odd, i.e. when R is even —
not when R is odd; the call is a no-op on the parent's locals, so the
parent always hands `outArray` to `writeOutputArray`, and `outArray` is
also the buffer every child wrote in the final round (the children's
local swaps are no-ops too). -/
theorem parentSwap_parity (arrSize : Nat) (hN : 1 ≤ arrSize) :
    (parentSwapCond arrSize = true ↔ (childRoundList arrSize).length % 2 = 0) ∧
      (parentHandles arrSize).2 = BufPtr.outBuf ∧
      (∀ r, childHandles r = (BufPtr.inBuf, BufPtr.outBuf)) := by
  refine ⟨?_, ?_, childHandles_eq⟩
  · unfold parentSwapCond childRoundList
    rw [List.length_range]
    constructor
    · intro h
      have : iterationsOf arrSize % 2 ≠ 0 := by
        simpa [bne_iff_ne] using h
      omega
    · intro h
      have : iterationsOf arrSize % 2 ≠ 0 := by omega
      simpa [bne_iff_ne] using this
  · unfold parentHandles
    by_cases h : parentSwapCond arrSize = true
    · rw [if_pos h]
      rfl
    · rw [if_neg h]

/-- Witness for `parentSwap_parity` at N = 4. -/
theorem parentSwap_parity_witness :
    (1 ≤ 4 ∧
      ((parentSwapCond 4 = true ↔ (childRoundList 4).length % 2 = 0) ∧
        (parentHandles 4).2 = BufPtr.outBuf ∧
        (∀ r, childHandles r = (BufPtr.inBuf, BufPtr.outBuf)))) :=
  ⟨by decide, parentSwap_parity 4 (by decide)⟩

/-- C4 (counterexample): the round-count formula is not uniform across the
two files.  src/prefixSum.cpp computes its iteration bound from the process
count: run with N = 8, M = 2 its loop executes 2 rounds, not
floor(log2 8) + 1 = 4. -/
theorem psRound_count_counterexample :
    (psRoundList 2).length = 2 ∧ Nat.log2 8 + 1 = 4 ∧
      (psRoundList 2).length ≠ (childRoundList 8).length := by
  refine ⟨by decide, ?_, by decide⟩
  rw [← log2Fuel_eq_log2 8 8 (Nat.le_refl 8)]
  decide

/-- C4 (amended): in src/my-count.cpp the child round loop executes exactly
floor(log2 N) + 1 rounds, a count depending only on the array size and not
on the worker count (the loop bound `iterations` is computed from `arrSize`
alone); the src/prefixSum.cpp draft instead executes
floor(log2 M) + 1 rounds, a count depending on the worker count. -/
theorem round_counts (arrSize numProcesses : Nat)
    (hN : 1 ≤ arrSize) (hM : 1 ≤ numProcesses) :
    (childRoundList arrSize).length = Nat.log2 arrSize + 1 ∧
      (psRoundList numProcesses).length = Nat.log2 numProcesses + 1 := by
  unfold childRoundList psRoundList iterationsOf iterationsPS
  rw [List.length_range, List.length_range,
    log2Fuel_eq_log2 arrSize arrSize (Nat.le_refl arrSize),
    log2Fuel_eq_log2 numProcesses numProcesses (Nat.le_refl numProcesses)]
  exact ⟨rfl, rfl⟩

/-- Witness for `round_counts` at N = 8, M = 3. -/
theorem round_counts_witness :
    (1 ≤ 8 ∧ 1 ≤ 3) ∧
      ((childRoundList 8).length = Nat.log2 8 + 1 ∧
        (psRoundList 3).length = Nat.log2 3 + 1) :=
  ⟨by decide, round_counts 8 3 (by decide) (by decide)⟩

/-- Phase of one worker in the barrier protocol of `synchronize`
(src/my-count.cpp lines 170-174): `round` is the round `i` the worker is
currently in; `reported` is true between its increment `turn[0]++` and its
exit from the second wait. -/
structure WorkerPhase : Type where
  round : Nat
  reported : Bool

/-- Global state of the barrier model: the shared counter `turn[0]` and the
phase of each of the M workers. -/
structure BarrierState (M : Nat) : Type where
  counter : Nat
  phase : Fin M → WorkerPhase

/-- Transitions of the barrier protocol, read off `synchronize`
(src/my-count.cpp lines 170-174).  A worker `j` in round `i` that has not
yet reported passes the first wait `while(turn[0] != i*M + j);` only when
the counter equals `i*M + j`, and then performs `turn[0]++`, incrementing
the counter by exactly 1 (`report`).  A worker that has reported leaves the
second wait `while(turn[0] < (i+1)*M);` and begins round `i+1` only when
the counter is at least `(i+1)*M` (`advance`, which does not touch the
counter). -/
inductive BarrierStep (M : Nat) : BarrierState M → BarrierState M → Prop
  | report (s : BarrierState M) (j : Fin M) :
      (s.phase j).reported = false →
      s.counter = (s.phase j).round * M + j.val →
      BarrierStep M s
        { counter := s.counter + 1,
          phase := Function.update s.phase j ⟨(s.phase j).round, true⟩ }
  | advance (s : BarrierState M) (j : Fin M) :
      (s.phase j).reported = true →
      ((s.phase j).round + 1) * M ≤ s.counter →
      BarrierStep M s
        { counter := s.counter,
          phase := Function.update s.phase j ⟨(s.phase j).round + 1, false⟩ }

/-- Initial state: the parent sets `*barrier = 0` (src/my-count.cpp
line 239) before forking, and every worker starts in round 0 before its
first increment. -/
def barrierInit (M : Nat) : BarrierState M :=
  { counter := 0, phase := fun _ => { round := 0, reported := false } }

/-- States the barrier system can reach from the initial state. -/
def BarrierReachable (M : Nat) (s : BarrierState M) : Prop :=
  Relation.ReflTransGen (BarrierStep M) (barrierInit M) s

/-- Number of worker-round-completion increments worker `j` has performed:
one per fully completed round, plus one if it has already reported the
current round. -/
def reportCountPh {M : Nat} (ph : Fin M → WorkerPhase) (j : Fin M) : Nat :=
  (ph j).round + (if (ph j).reported then 1 else 0)

/-- Helper lemma: a report step raises the total increment count by one. -/
theorem sum_reportCount_report {M : Nat} (ph : Fin M → WorkerPhase)
    (j : Fin M) (hrep : (ph j).reported = false) :
    ∑ i, reportCountPh (Function.update ph j ⟨(ph j).round, true⟩) i =
      (∑ i, reportCountPh ph i) + 1 := by
  have h : ∀ i, reportCountPh (Function.update ph j ⟨(ph j).round, true⟩) i =
      reportCountPh ph i + (if i = j then 1 else 0) := by
    intro i
    unfold reportCountPh
    by_cases hij : i = j
    · subst hij
      rw [Function.update_same, if_pos rfl]
      simp [hrep]
    · rw [Function.update_noteq hij, if_neg hij]
      omega
  calc ∑ i, reportCountPh (Function.update ph j ⟨(ph j).round, true⟩) i
      = ∑ i, (reportCountPh ph i + if i = j then 1 else 0) :=
        Finset.sum_congr rfl (fun i _ => h i)
    _ = (∑ i, reportCountPh ph i) + ∑ i, (if i = j then 1 else 0) :=
        Finset.sum_add_distrib
    _ = (∑ i, reportCountPh ph i) + 1 := by simp

/-- Helper lemma: an advance step leaves the total increment count
unchanged. -/
theorem sum_reportCount_advance {M : Nat} (ph : Fin M → WorkerPhase)
    (j : Fin M) (hrep : (ph j).reported = true) :
    ∑ i, reportCountPh (Function.update ph j ⟨(ph j).round + 1, false⟩) i =
      ∑ i, reportCountPh ph i := by
  refine Finset.sum_congr rfl (fun i _ => ?_)
  unfold reportCountPh
  by_cases hij : i = j
  · subst hij
    rw [Function.update_same]
    simp [hrep]
  · rw [Function.update_noteq hij]

/-- Helper lemma: every barrier transition changes the counter by exactly
one (a report) or not at all (an advance). -/
theorem barrierStep_counter {M : Nat} (s t : BarrierState M)
    (h : BarrierStep M s t) :
    t.counter = s.counter + 1 ∨ t.counter = s.counter := by
  cases h with
  | report j h1 h2 => left; rfl
  | advance j h1 h2 => right; rfl

/-- Helper lemma: one barrier transition preserves the counter invariants. -/
theorem barrierInv_preserved {M : Nat} (s t : BarrierState M)
    (hstep : BarrierStep M s t)
    (hsum : s.counter = ∑ j, reportCountPh s.phase j)
    (hbound : ∀ j, (s.phase j).round * M ≤ s.counter) :
    t.counter = (∑ j, reportCountPh t.phase j) ∧
      ∀ j, (t.phase j).round * M ≤ t.counter := by
  cases hstep with
  | report j hrep hctr =>
    constructor
    · show s.counter + 1 =
        ∑ i, reportCountPh (Function.update s.phase j ⟨(s.phase j).round, true⟩) i
      rw [sum_reportCount_report s.phase j hrep, ← hsum]
    · intro i
      show (Function.update s.phase j ⟨(s.phase j).round, true⟩ i).round * M ≤
        s.counter + 1
      by_cases hij : i = j
      · subst hij
        rw [Function.update_same]
        exact Nat.le_succ_of_le (hbound i)
      · rw [Function.update_noteq hij]
        exact Nat.le_succ_of_le (hbound i)
  | advance j hrep hge =>
    constructor
    · show s.counter =
        ∑ i, reportCountPh
          (Function.update s.phase j ⟨(s.phase j).round + 1, false⟩) i
      rw [sum_reportCount_advance s.phase j hrep, ← hsum]
    · intro i
      show (Function.update s.phase j ⟨(s.phase j).round + 1, false⟩ i).round *
          M ≤ s.counter
      by_cases hij : i = j
      · subst hij
        rw [Function.update_same]
        exact hge
      · rw [Function.update_noteq hij]
        exact hbound i

/-- C8: in every reachable state of the barrier protocol, the counter
equals the total number of worker-round-completion increments performed
(so it has only ever grown by 1 per completion, each transition adding 1 or
0 to it), and a worker in round `r` implies the counter already reached
`r*M` — in particular no worker begins round `i+1` before the counter has
reached `(i+1)*M`, i.e. before all M workers have reported round `i`. -/
theorem barrier_protocol_invariants (M : Nat) (s : BarrierState M)
    (hReach : BarrierReachable M s) :
    s.counter = (∑ j, reportCountPh s.phase j) ∧
      (∀ j : Fin M, (s.phase j).round * M ≤ s.counter) ∧
      (∀ t, BarrierStep M s t →
        t.counter = s.counter + 1 ∨ t.counter = s.counter) := by
  unfold BarrierReachable at hReach
  induction hReach with
  | refl =>
    refine ⟨?_, ?_, fun t ht => barrierStep_counter _ t ht⟩
    · simp [barrierInit, reportCountPh]
    · intro j
      simp [barrierInit]
  | tail hsteps hstep ih =>
    obtain ⟨hsum, hbound, _⟩ := ih
    obtain ⟨hsum2, hbound2⟩ := barrierInv_preserved _ _ hstep hsum hbound
    exact ⟨hsum2, hbound2, fun t ht => barrierStep_counter _ t ht⟩

/-- Witness for `barrier_protocol_invariants`: the initial state of the
two-worker system is reachable, and the invariants hold there. -/
theorem barrier_protocol_invariants_witness :
    BarrierReachable 2 (barrierInit 2) ∧
      ((barrierInit 2).counter =
          (∑ j, reportCountPh (barrierInit 2).phase j) ∧
        (∀ j : Fin 2, ((barrierInit 2).phase j).round * 2 ≤
            (barrierInit 2).counter) ∧
        (∀ t, BarrierStep 2 (barrierInit 2) t →
          t.counter = (barrierInit 2).counter + 1 ∨
            t.counter = (barrierInit 2).counter)) :=
  ⟨Relation.ReflTransGen.refl,
    barrier_protocol_invariants 2 (barrierInit 2) Relation.ReflTransGen.refl⟩

/-- State of the three shared memory segments created in main
(src/my-count.cpp lines 224-226): for each, whether it is still registered
with the system (created by `shmget`, removed by `shmctl(…, IPC_RMID, …)`)
and whether the process is still attached to it (`shmat` / `shmdt`). -/
structure ShmSegs : Type where
  reg1 : Bool
  reg2 : Bool
  reg3 : Bool
  att1 : Bool
  att2 : Bool
  att3 : Bool
deriving DecidableEq

/-- The function `removeMemory` of src/my-count.cpp (lines 192-201): it
detaches the three pointers with `shmdt` and removes all three segments
with `shmctl(…, IPC_RMID, NULL)`, unconditionally. -/
def removeMemory (s : ShmSegs) : ShmSegs :=
  { reg1 := false, reg2 := false, reg3 := false,
    att1 := false, att2 := false, att3 := false }

/-- Segment state after lines 224-239 of main: all three segments created
and attached, the barrier initialised. -/
def segsAfterAlloc : ShmSegs :=
  { reg1 := true, reg2 := true, reg3 := true,
    att1 := true, att2 := true, att3 := true }

/-- The ways main can terminate once the shared segments exist. -/
inductive MainExit : Type
  | invalidInput : MainExit
  | unwritableOutput : MainExit
  | success : MainExit
deriving DecidableEq

/-- Model of main from the `makeInputArray` call to termination
(src/my-count.cpp lines 243-288), tracking the shared-segment state and the
exit taken.  `count` is `makeInputArray`'s return value and `writeOk` is
whether `writeOutputArray` succeeds.  Lines 246-249: bad input file —
`removeMemory` then the "Invalid input file." exit.  Lines 280-283:
unwritable output file — `removeMemory` then the "Unable to open the output
file." exit.  Line 286: `removeMemory` on the success path.  Each pair
records the segment state at the moment of the exit. -/
def mainExitState (count arrSize : Int) (writeOk : Bool) :
    ShmSegs × MainExit :=
  if count < 0 ∨ count < arrSize - 1 then
    (removeMemory segsAfterAlloc, MainExit.invalidInput)
  else if writeOk = false then
    (removeMemory segsAfterAlloc, MainExit.unwritableOutput)
  else
    (removeMemory segsAfterAlloc, MainExit.success)

/-- C9: on every error exit taken after the shared buffers and barrier
counter exist (bad input file, unwritable output file), the program has
already detached and removed all three shared memory segments: no failing
path leaves a segment registered or attached. -/
theorem error_paths_release_shm (count arrSize : Int) (writeOk : Bool)
    (hfail : (mainExitState count arrSize writeOk).2 ≠ MainExit.success) :
    ((mainExitState count arrSize writeOk).1.reg1 = false ∧
        (mainExitState count arrSize writeOk).1.reg2 = false ∧
        (mainExitState count arrSize writeOk).1.reg3 = false) ∧
      ((mainExitState count arrSize writeOk).1.att1 = false ∧
        (mainExitState count arrSize writeOk).1.att2 = false ∧
        (mainExitState count arrSize writeOk).1.att3 = false) := by
  unfold mainExitState
  by_cases h1 : count < 0 ∨ count < arrSize - 1
  · rw [if_pos h1]
    exact ⟨⟨rfl, rfl, rfl⟩, rfl, rfl, rfl⟩
  · rw [if_neg h1]
    by_cases h2 : writeOk = false
    · rw [if_pos h2]
      exact ⟨⟨rfl, rfl, rfl⟩, rfl, rfl, rfl⟩
    · rw [if_neg h2]
      exact ⟨⟨rfl, rfl, rfl⟩, rfl, rfl, rfl⟩

/-- Witness for `error_paths_release_shm`: an unopenable input file
(count = -1) at N = 4. -/
theorem error_paths_release_shm_witness :
    ((mainExitState (-1) 4 true).2 ≠ MainExit.success) ∧
      (((mainExitState (-1) 4 true).1.reg1 = false ∧
          (mainExitState (-1) 4 true).1.reg2 = false ∧
          (mainExitState (-1) 4 true).1.reg3 = false) ∧
        ((mainExitState (-1) 4 true).1.att1 = false ∧
          (mainExitState (-1) 4 true).1.att2 = false ∧
          (mainExitState (-1) 4 true).1.att3 = false)) :=
  ⟨by decide, error_paths_release_shm (-1) 4 true (by decide)⟩

/-- Loop of `makeInputArray` (src/my-count.cpp lines 94-100): consume the
file's integer values in order; each iteration first checks
`if(count >= N) break;`, then stores `array[count] = currentValue;` and
increments `count`. -/
def inputLoop (vals : List Int) (array : Nat → Int) (count N : Nat) :
    (Nat → Int) × Nat :=
  match vals with
  | [] => (array, count)
  | v :: rest =>
    if N ≤ count then (array, count)
    else inputLoop rest (updArr array count v) (count + 1) N

/-- The function `makeInputArray` of src/my-count.cpp (lines 84-104).  The
input file is `none` when it cannot be opened (the function returns -1),
otherwise `some` of the list of integer values it yields, in order; the
function returns the filled buffer and the number of values written. -/
def makeInputArray (file : Option (List Int)) (array : Nat → Int) (N : Nat) :
    (Nat → Int) × Int :=
  match file with
  | none => (array, -1)
  | some vals =>
    let r := inputLoop vals array 0 N
    (r.1, (r.2 : Int))

/-- The abort test of main (src/my-count.cpp line 246):
`count < 0 || count < (arrSize-1)` routes to the "Invalid input file."
error exit. -/
def invalidInputTest (count : Int) (arrSize : Nat) : Bool :=
  decide (count < 0) || decide (count < (arrSize : Int) - 1)

/-- Helper lemma: the final `count` of the input loop is the smaller of
"initial count plus number of values" and N. -/
theorem inputLoop_count (N : Nat) :
    ∀ (vals : List Int) (array : Nat → Int) (count : Nat), count ≤ N →
      (inputLoop vals array count N).2 = min (count + vals.length) N := by
  intro vals
  induction vals with
  | nil =>
    intro array count hc
    unfold inputLoop
    simp
    omega
  | cons v rest ih =>
    intro array count hc
    unfold inputLoop
    by_cases h : N ≤ count
    · rw [if_pos h]
      simp
      omega
    · rw [if_neg h, ih (updArr array count v) (count + 1) (by omega)]
      simp
      omega

/-- Helper lemma: the input loop writes exactly the indices from the
initial `count` up to (but excluding) the final `count`; every other index
of the buffer keeps its previous value. -/
theorem inputLoop_preserve (N : Nat) :
    ∀ (vals : List Int) (array : Nat → Int) (count : Nat), count ≤ N →
      ∀ k, (k < count ∨ (inputLoop vals array count N).2 ≤ k) →
        (inputLoop vals array count N).1 k = array k := by
  intro vals
  induction vals with
  | nil =>
    intro array count hc k hk
    rfl
  | cons v rest ih =>
    intro array count hc k hk
    unfold inputLoop
    by_cases h : N ≤ count
    · rw [if_pos h]
    · rw [if_neg h]
      unfold inputLoop at hk
      rw [if_neg h] at hk
      have hfin : (inputLoop rest (updArr array count v) (count + 1) N).2 =
          min (count + 1 + rest.length) N :=
        inputLoop_count N rest (updArr array count v) (count + 1) (by omega)
      have hkc : k ≠ count := by
        rcases hk with hk | hk
        · omega
        · rw [hfin] at hk
          omega
      have hk2 : k < count + 1 ∨
          (inputLoop rest (updArr array count v) (count + 1) N).2 ≤ k := by
        rcases hk with hk | hk
        · left; omega
        · right; exact hk
      rw [ih (updArr array count v) (count + 1) (by omega) k hk2]
      unfold updArr
      rw [if_neg hkc]

/-- C10: main takes the "Invalid input file." exit iff the input file
cannot be opened or yields fewer than N-1 integers; a file with exactly
N-1 integers is accepted even though element N-1 of the buffer is never
written; and `makeInputArray` never writes at or past index N and returns
a count of at most N. -/
theorem invalid_input_characterisation (file : Option (List Int))
    (array : Nat → Int) (N : Nat) (hN : 1 ≤ N) :
    (invalidInputTest (makeInputArray file array N).2 N = true ↔
        (file = none ∨ ∃ vals, file = some vals ∧ vals.length < N - 1)) ∧
      (makeInputArray file array N).2 ≤ (N : Int) ∧
      (∀ k, N ≤ k → (makeInputArray file array N).1 k = array k) ∧
      (∀ vals, file = some vals → vals.length = N - 1 →
        invalidInputTest (makeInputArray file array N).2 N = false ∧
          (makeInputArray file array N).1 (N - 1) = array (N - 1)) := by
  cases file with
  | none =>
    refine ⟨?_, ?_, ?_, ?_⟩
    · simp [makeInputArray, invalidInputTest]
    · simp only [makeInputArray]
      omega
    · intro k hk
      rfl
    · intro vals hv
      exact Option.noConfusion hv
  | some vals =>
    have hcount : (inputLoop vals array 0 N).2 = min vals.length N := by
      have h := inputLoop_count N vals array 0 (by omega)
      simpa using h
    refine ⟨?_, ?_, ?_, ?_⟩
    · constructor
      · intro h
        simp only [makeInputArray, invalidInputTest, Bool.or_eq_true,
          decide_eq_true_eq] at h
        rw [hcount] at h
        refine Or.inr ⟨vals, rfl, ?_⟩
        omega
      · intro h
        simp only [makeInputArray, invalidInputTest, Bool.or_eq_true,
          decide_eq_true_eq]
        rw [hcount]
        rcases h with h | ⟨vals2, hv, hlen⟩
        · exact Option.noConfusion h
        · have hvv : vals = vals2 := by
            injection hv
          subst hvv
          right
          omega
    · simp only [makeInputArray]
      rw [hcount]
      omega
    · intro k hk
      simp only [makeInputArray]
      apply inputLoop_preserve N vals array 0 (by omega)
      right
      rw [hcount]
      omega
    · intro vals2 hv hlen
      have hvv : vals = vals2 := by
        injection hv
      subst hvv
      constructor
      · simp only [makeInputArray, invalidInputTest, Bool.or_eq_false_iff,
          decide_eq_false_iff_not]
        rw [hcount]
        constructor
        · omega
        · omega
      · simp only [makeInputArray]
        apply inputLoop_preserve N vals array 0 (by omega)
        right
        rw [hcount]
        omega

/-- Witness for `invalid_input_characterisation`: N = 2 with a readable
input file holding exactly one integer (N-1 = 1 value), which is
accepted. -/
theorem invalid_input_characterisation_witness :
    1 ≤ 2 ∧
      ((invalidInputTest
            (makeInputArray (some [(5 : Int)]) (fun _ => 0) 2).2 2 = true ↔
          (some [(5 : Int)] = none ∨
            ∃ vals, some [(5 : Int)] = some vals ∧ vals.length < 2 - 1)) ∧
        (makeInputArray (some [(5 : Int)]) (fun _ => 0) 2).2 ≤ (2 : Int) ∧
        (∀ k, 2 ≤ k →
          (makeInputArray (some [(5 : Int)]) (fun _ => 0) 2).1 k = (fun _ => 0) k) ∧
        (∀ vals, some [(5 : Int)] = some vals → vals.length = 2 - 1 →
          invalidInputTest
              (makeInputArray (some [(5 : Int)]) (fun _ => 0) 2).2 2 = false ∧
            (makeInputArray (some [(5 : Int)]) (fun _ => 0) 2).1 (2 - 1) =
              (fun _ => 0) (2 - 1))) :=
  ⟨by decide, invalid_input_characterisation (some [(5 : Int)]) (fun _ => 0) 2
    (by decide)⟩
